import Mathlib

/-!
Shallow embedding of `src/Wordle.py` (RandomGgames/Wordle-Assistant).

Python words are modelled as `List Char`; Python dicts (whose iteration
order is insertion order) as association lists with unique keys, where
assignment replaces the value of an existing key in place or appends a
new key at the end.  The position keys of the constraint dicts are the
strings `"1"` … `"5"` produced by `main`.  A Python `KeyError` (the only
exception `generate_words` can raise) is modelled by returning `none`.
`list(set(…))` iterates the set in an unspecified order; it is modelled
by `List.dedup`, which keeps one occurrence of each element — every
property proved below is independent of that order.  `str.isalpha` is
modelled by `Char.isAlpha` (the source data is ASCII).  Logging calls
are pure I/O and have no effect on the values computed; they are omitted.
-/

namespace Wordle

set_option maxRecDepth 16384

abbrev Word := List Char

/-- Python dict assignment `d[k] = v`: replace the value of an existing
key in place, otherwise append the new key at the end. -/
def dictUpdate {α : Type} (d : List (String × α)) (k : String) (v : α) :
    List (String × α) :=
  if d.any (fun p => p.1 = k) then
    d.map (fun p => if p.1 = k then (k, v) else p)
  else d ++ [(k, v)]

/-- `green_chars = list(greens.values())` (Wordle.py line 66). -/
def greenChars (gs : List (String × Char)) : List Char := gs.map Prod.snd

/-- `yellow_chars = list(set(char for chars in yellows.values() for char in chars))`
(line 67); the set's iteration order is modelled by `dedup`. -/
def yellowChars (ys : List (String × List Char)) : List Char :=
  (ys.flatMap Prod.snd).dedup

/-- `available_chars = green_chars + yellow_chars + gray_chars` (lines 68-69). -/
def availableChars (gs : List (String × Char)) (ys : List (String × List Char))
    (grays : List Char) : List Char :=
  greenChars gs ++ yellowChars ys ++ grays

/-- `chars_by_index = {"1": available_chars[:], …, "5": available_chars[:]}`
(lines 71-77); the `[:]` copies become distinct values here. -/
def initCbi (avail : List Char) : List (String × List Char) :=
  [("1", avail), ("2", avail), ("3", avail), ("4", avail), ("5", avail)]

/-- `for index, char in greens.items(): chars_by_index[str(index)] = [char]`
(lines 78-80).  Dict assignment never raises; an unknown key is added. -/
def applyGreens (gs : List (String × Char)) (cbi : List (String × List Char)) :
    List (String × List Char) :=
  gs.foldl (fun cbi p => dictUpdate cbi p.1 [p.2]) cbi

/-- One step of lines 84-85: `if char in chars_by_index[str(index)]:
chars_by_index[str(index)].remove(char)`.  The lookup raises `KeyError`
(`none`) for a key not in the table; `remove` deletes the first occurrence. -/
def removeYellowChar (cbi : List (String × List Char)) (k : String) (c : Char) :
    Option (List (String × List Char)) :=
  match cbi.lookup k with
  | none => none
  | some l => some (if c ∈ l then dictUpdate cbi k (l.erase c) else cbi)

/-- `for index, chars in yellows.items(): for char in chars: …` (lines 81-85). -/
def applyYellows (ys : List (String × List Char))
    (cbi : List (String × List Char)) : Option (List (String × List Char)) :=
  ys.foldlM (fun cbi p => p.2.foldlM (fun cbi c => removeYellowChar cbi p.1 c) cbi)
    cbi

/-- The per-position candidate table after both constraint phases
(lines 71-85). -/
def charsByIndex (gs : List (String × Char)) (ys : List (String × List Char))
    (grays : List Char) : Option (List (String × List Char)) :=
  applyYellows ys (applyGreens gs (initCbi (availableChars gs ys grays)))

/-- The body of the five nested loops (lines 94-101): keep `w` only if it
contains every yellow letter, is in the dictionary and is not yet present. -/
def addWord (ych : List Char) (dict : List Word) (acc : List Word) (w : Word) :
    List Word :=
  if ¬ (∀ c ∈ ych, c ∈ w) then acc
  else if w ∉ dict then acc
  else if w ∈ acc then acc
  else acc ++ [w]

/-- `for i in chars_by_index["1"]: … generated_word = f"{i}{j}{k}{l}{m}"`
(lines 90-95): the Cartesian product of the five lists, position 1
outermost, in list order. -/
def combos (l1 l2 l3 l4 l5 : List Char) : List Word :=
  l1.flatMap fun i => l2.flatMap fun j => l3.flatMap fun k =>
    l4.flatMap fun l => l5.map fun m => [i, j, k, l, m]

/-- `generate_words(greens, yellows, grays, english_words)` (lines 65-103).
`none` models an uncaught `KeyError`. -/
def generateWords (gs : List (String × Char)) (ys : List (String × List Char))
    (grays : List Char) (english_words : List Word) : Option (List Word) :=
  match charsByIndex gs ys grays with
  | none => none
  | some cbi =>
    match cbi.lookup "1", cbi.lookup "2", cbi.lookup "3", cbi.lookup "4",
        cbi.lookup "5" with
    | some l1, some l2, some l3, some l4, some l5 =>
      some ((combos l1 l2 l3 l4 l5).foldl (addWord (yellowChars ys) english_words) [])
    | _, _, _, _, _ => none

/-- Helper for `pySplit`: `cur` holds the reversed characters of the token
being read. -/
def splitWsAux : List Char → List Char → List (List Char)
  | [], cur => if cur = [] then [] else [cur.reverse]
  | c :: rest, cur =>
    if Char.isWhitespace c then
      if cur = [] then splitWsAux rest [] else cur.reverse :: splitWsAux rest []
    else splitWsAux rest (c :: cur)

/-- Python `str.split()` with no argument: split on runs of whitespace,
discarding empty tokens. -/
def pySplit (s : String) : List (List Char) := splitWsAux s.toList []

/-- `yellows.setdefault(number, []).append(letter)` (line 134). -/
def ydictAppend (ys : List (String × List Char)) (k : String) (c : Char) :
    List (String × List Char) :=
  match ys.lookup k with
  | some l => dictUpdate ys k (l ++ [c])
  | none => ys ++ [(k, [c])]

/-- The yellow-processing loop of `main` (lines 130-134):
`for part in yellow.split(): letter = part[0]; number = part[1:]; …`.
`split()` never yields an empty token, so `part[0]` cannot raise; the
empty-token branch is unreachable and returns the dict unchanged. -/
def parseYellows (yellow : String) : List (String × List Char) :=
  (pySplit yellow).foldl
    (fun ys part =>
      match part with
      | [] => ys
      | letter :: rest => ydictAppend ys (String.mk rest) letter)
    []

/-- Python `str.strip()`: remove leading and trailing whitespace. -/
def pyStrip (s : List Char) : List Char :=
  ((s.dropWhile Char.isWhitespace).reverse.dropWhile Char.isWhitespace).reverse

/-- `load_words(file_path)` (lines 53-62), applied to the file's lines:
`word = word.strip().lower()`, kept when `len(word) == 5 and word.isalpha()`. -/
def loadWords (lines : List (List Char)) : List (List Char) :=
  lines.foldl
    (fun ws line =>
      let w := (pyStrip line).map Char.toLower
      if w.length = 5 ∧ w.all Char.isAlpha then ws ++ [w] else ws)
    []

/-- The zero-based index of a position key `"1"` … `"5"`. -/
def posIdx (p : String) : Nat :=
  if p = "1" then 0 else if p = "2" then 1 else if p = "3" then 2
  else if p = "4" then 3 else 4

/-- The five position keys of the table. -/
def positions : List String := ["1", "2", "3", "4", "5"]

/-!
### Heap model of `generate_words`

The pure embedding above cannot express the frame property of the claim
"generate_words mutates only locally created copies", because Python's
in-place `list.remove` and aliasing between objects disappear in a
value-level translation.  The definitions below re-embed `generate_words`
over an explicit heap of Python objects, making object identity visible:
the four inputs are references, `available_chars[:]` and `[char]` allocate
fresh cells, and `remove` writes a cell in place.  All value computations
reuse the pure definitions above.
-/

/-- A Python object that `generate_words` touches: a list of letters, the
word list, the greens dict, or the yellows dict (whose values are
references to letter lists). -/
inductive PyObj : Type
  | chars : List Char → PyObj
  | words : List Word → PyObj
  | gdict : List (String × Char) → PyObj
  | ydict : List (String × Nat) → PyObj

/-- The heap: object store indexed by allocation order. -/
abbrev Heap := List PyObj

/-- Allocate a fresh object, returning the new heap and its reference. -/
def halloc (h : Heap) (o : PyObj) : Heap × Nat := (h ++ [o], h.length)

/-- Dereference. -/
def hread (h : Heap) (r : Nat) : Option PyObj := h[r]?

/-- In-place update of an existing object. -/
def hwrite (h : Heap) (r : Nat) (o : PyObj) : Heap := h.set r o

/-- Dereference a letter-list object. -/
def readChars (h : Heap) (r : Nat) : Option (List Char) :=
  match hread h r with
  | some (PyObj.chars cs) => some cs
  | _ => none

/-- Lines 71-77 on the heap: five fresh copies of `available_chars`;
`chars_by_index` maps position keys to their references. -/
def initCbiH (h : Heap) (avail : List Char) : Heap × List (String × Nat) :=
  let (h1, r1) := halloc h (PyObj.chars avail)
  let (h2, r2) := halloc h1 (PyObj.chars avail)
  let (h3, r3) := halloc h2 (PyObj.chars avail)
  let (h4, r4) := halloc h3 (PyObj.chars avail)
  let (h5, r5) := halloc h4 (PyObj.chars avail)
  (h5, [("1", r1), ("2", r2), ("3", r3), ("4", r4), ("5", r5)])

/-- Lines 78-80 on the heap: each green allocates a fresh `[char]` list and
rebinds the position key to it. -/
def applyGreensH (gs : List (String × Char)) (h : Heap)
    (cbi : List (String × Nat)) : Heap × List (String × Nat) :=
  gs.foldl
    (fun hc p =>
      let r := (halloc hc.1 (PyObj.chars [p.2])).2
      (((halloc hc.1 (PyObj.chars [p.2])).1), dictUpdate hc.2 p.1 r))
    (h, cbi)

/-- Lines 84-85 on the heap: look the position key up (KeyError = `none`),
dereference the list and remove the first occurrence in place. -/
def removeYellowCharH (h : Heap) (cbi : List (String × Nat)) (k : String)
    (c : Char) : Option Heap :=
  match cbi.lookup k with
  | none => none
  | some r =>
    match readChars h r with
    | none => none
    | some l => some (if c ∈ l then hwrite h r (PyObj.chars (l.erase c)) else h)

/-- Lines 81-85 on the heap: iterate the yellows dict; each value is a
reference to the letter list iterated by the inner loop. -/
def applyYellowsH (ys : List (String × Nat)) (h0 : Heap)
    (cbi : List (String × Nat)) : Option Heap :=
  ys.foldlM
    (fun h p =>
      match readChars h p.2 with
      | none => none
      | some cs => cs.foldlM (fun h c => removeYellowCharH h cbi p.1 c) h)
    h0

/-- `generate_words` on the heap (lines 65-103): the four inputs are
references into `h`; the result is the final heap and the word list.
The value-level steps (pool construction, Cartesian product, filtering)
reuse the pure definitions. -/
def generateWordsH (h : Heap) (gRef yRef grayRef dictRef : Nat) :
    Option (Heap × List Word) :=
  match hread h gRef, hread h yRef, hread h grayRef, hread h dictRef with
  | some (PyObj.gdict gs), some (PyObj.ydict ys), some (PyObj.chars grays),
      some (PyObj.words dict) =>
    match ys.mapM (fun p => (readChars h p.2).map (fun cs => (p.1, cs))) with
    | none => none
    | some ysv =>
      let avail := availableChars gs ysv grays
      let hc1 := initCbiH h avail
      let hc2 := applyGreensH gs hc1.1 hc1.2
      match applyYellowsH ys hc2.1 hc2.2 with
      | none => none
      | some h3 =>
        match hc2.2.lookup "1", hc2.2.lookup "2", hc2.2.lookup "3",
            hc2.2.lookup "4", hc2.2.lookup "5" with
        | some r1, some r2, some r3, some r4, some r5 =>
          match readChars h3 r1, readChars h3 r2, readChars h3 r3,
              readChars h3 r4, readChars h3 r5 with
          | some l1, some l2, some l3, some l4, some l5 =>
            some (h3,
              (combos l1 l2 l3 l4 l5).foldl (addWord (yellowChars ysv) dict) [])
          | _, _, _, _, _ => none
        | _, _, _, _, _ => none
  | _, _, _, _ => none

/-! ### Association-list lemmas -/

theorem lookup_cons_eq_if {α : Type} (k a : String) (v : α) (l : List (String × α)) :
    ((k, v) :: l).lookup a = if k = a then some v else l.lookup a := by
  rw [List.lookup_cons]
  by_cases h : k = a
  · simp [h]
  · simp [h, beq_eq_false_iff_ne.mpr (Ne.symm h)]

theorem lookup_eq_none_of_forall_ne {α : Type} (l : List (String × α)) (k : String)
    (h : ∀ p ∈ l, p.1 ≠ k) : l.lookup k = none := by
  induction l with
  | nil => rfl
  | cons p l ih =>
    rw [show p = (p.1, p.2) from rfl, lookup_cons_eq_if,
      if_neg (h p (List.mem_cons_self p l))]
    exact ih fun q hq => h q (List.mem_cons_of_mem p hq)

theorem lookup_append_left_skip {α : Type} (d l : List (String × α)) (k : String)
    (h : ∀ p ∈ d, p.1 ≠ k) : (d ++ l).lookup k = l.lookup k := by
  induction d with
  | nil => rfl
  | cons p d ih =>
    rw [List.cons_append, show p = (p.1, p.2) from rfl, lookup_cons_eq_if,
      if_neg (h p (List.mem_cons_self p d))]
    exact ih fun q hq => h q (List.mem_cons_of_mem p hq)

theorem lookup_append_right_skip {α : Type} (d l : List (String × α)) (k : String)
    (h : ∀ p ∈ l, p.1 ≠ k) : (d ++ l).lookup k = d.lookup k := by
  induction d with
  | nil => exact lookup_eq_none_of_forall_ne l k h
  | cons p d ih =>
    rw [List.cons_append, show p = (p.1, p.2) from rfl, lookup_cons_eq_if,
      lookup_cons_eq_if]
    split
    · rfl
    · exact ih

theorem lookup_map_replace {α : Type} (d : List (String × α)) (k : String) (v : α) :
    (d.map (fun p => if p.1 = k then (k, v) else p)).lookup k =
      (d.lookup k).map (fun _ => v) := by
  induction d with
  | nil => rfl
  | cons q d ih =>
    by_cases hq : q.1 = k
    · simp only [List.map_cons, if_pos hq]
      rw [lookup_cons_eq_if, if_pos rfl, show q = (q.1, q.2) from rfl,
        lookup_cons_eq_if, if_pos hq]
      rfl
    · simp only [List.map_cons, if_neg hq]
      rw [show q = (q.1, q.2) from rfl, lookup_cons_eq_if, if_neg hq,
        lookup_cons_eq_if, if_neg hq]
      exact ih

theorem lookup_map_replace_ne {α : Type} (d : List (String × α)) (k k' : String) (v : α)
    (h : k' ≠ k) :
    (d.map (fun p => if p.1 = k then (k, v) else p)).lookup k' = d.lookup k' := by
  induction d with
  | nil => rfl
  | cons q d ih =>
    by_cases hq : q.1 = k
    · simp only [List.map_cons, if_pos hq]
      rw [lookup_cons_eq_if, if_neg (Ne.symm h), show q = (q.1, q.2) from rfl,
        lookup_cons_eq_if, if_neg (hq ▸ (Ne.symm h) : ¬ q.1 = k')]
      exact ih
    · simp only [List.map_cons, if_neg hq]
      rw [show q = (q.1, q.2) from rfl, lookup_cons_eq_if, lookup_cons_eq_if]
      split
      · rfl
      · exact ih

theorem lookup_isSome_of_key_mem {α : Type} (d : List (String × α)) (k : String)
    (h : ∃ p ∈ d, p.1 = k) : ∃ w, d.lookup k = some w := by
  induction d with
  | nil => obtain ⟨p, hp, _⟩ := h; cases hp
  | cons q d ih =>
    by_cases hq : q.1 = k
    · exact ⟨q.2, by rw [show q = (q.1, q.2) from rfl, lookup_cons_eq_if, if_pos hq]⟩
    · obtain ⟨p, hp, hpk⟩ := h
      rcases List.mem_cons.mp hp with rfl | hmem
      · exact absurd hpk hq
      · obtain ⟨w, hw⟩ := ih ⟨p, hmem, hpk⟩
        exact ⟨w, by rw [show q = (q.1, q.2) from rfl, lookup_cons_eq_if, if_neg hq]; exact hw⟩

theorem lookup_dictUpdate_self {α : Type} (d : List (String × α)) (k : String) (v : α) :
    (dictUpdate d k v).lookup k = some v := by
  unfold dictUpdate
  split
  · rename_i hany
    rw [List.any_eq_true] at hany
    obtain ⟨p, hp, hpk⟩ := hany
    obtain ⟨w, hw⟩ := lookup_isSome_of_key_mem d k ⟨p, hp, by simpa using hpk⟩
    rw [lookup_map_replace, hw]
    rfl
  · rename_i hany
    have hnone : ∀ p ∈ d, p.1 ≠ k := by
      intro p hp hc
      exact hany (List.any_eq_true.mpr ⟨p, hp, by simpa using hc⟩)
    rw [lookup_append_left_skip d _ k hnone, lookup_cons_eq_if, if_pos rfl]

theorem lookup_dictUpdate_ne {α : Type} (d : List (String × α)) (k k' : String) (v : α)
    (h : k' ≠ k) : (dictUpdate d k v).lookup k' = d.lookup k' := by
  unfold dictUpdate
  split
  · exact lookup_map_replace_ne d k k' v h
  · exact lookup_append_right_skip d _ k' (by simpa using Ne.symm h)

/-! ### The green phase -/

theorem applyGreens_cons (p : String × Char) (gs : List (String × Char))
    (cbi : List (String × List Char)) :
    applyGreens (p :: gs) cbi = applyGreens gs (dictUpdate cbi p.1 [p.2]) := rfl

theorem lookup_applyGreens_of_not_key (gs : List (String × Char))
    (cbi : List (String × List Char)) (k : String) (h : ∀ p ∈ gs, p.1 ≠ k) :
    (applyGreens gs cbi).lookup k = cbi.lookup k := by
  induction gs generalizing cbi with
  | nil => rfl
  | cons p gs ih =>
    rw [applyGreens_cons, ih _ fun q hq => h q (List.mem_cons_of_mem p hq),
      lookup_dictUpdate_ne _ _ _ _ (Ne.symm (h p (List.mem_cons_self p gs)))]

theorem lookup_applyGreens_self (gs : List (String × Char))
    (cbi : List (String × List Char)) (k : String) (c : Char)
    (hnodup : (gs.map Prod.fst).Nodup) (hmem : (k, c) ∈ gs) :
    (applyGreens gs cbi).lookup k = some [c] := by
  induction gs generalizing cbi with
  | nil => cases hmem
  | cons q gs ih =>
    rw [List.map_cons, List.nodup_cons] at hnodup
    rcases List.mem_cons.mp hmem with rfl | hmem'
    · rw [applyGreens_cons,
        lookup_applyGreens_of_not_key _ _ _
          (fun p hp hc =>
            hnodup.1 (by rw [show (k, c).1 = k from rfl, ← hc]
                         exact List.mem_map_of_mem Prod.fst hp))]
      exact lookup_dictUpdate_self cbi k [c]
    · exact ih _ hnodup.2 hmem'

theorem lookup_applyGreens_isSome (gs : List (String × Char))
    (cbi : List (String × List Char)) (k : String) (w : List Char)
    (h : cbi.lookup k = some w) :
    ∃ w', (applyGreens gs cbi).lookup k = some w' := by
  induction gs generalizing cbi w with
  | nil => exact ⟨w, h⟩
  | cons p gs ih =>
    rw [applyGreens_cons]
    by_cases hk : k = p.1
    · exact ih _ [p.2] (hk ▸ lookup_dictUpdate_self cbi p.1 [p.2])
    · exact ih _ w ((lookup_dictUpdate_ne cbi p.1 k [p.2] hk).trans h)

/-! ### The yellow phase -/

theorem yellowEntryFold_eq (cs : List Char) (k : String)
    (cbi : List (String × List Char)) (l : List Char) (h : cbi.lookup k = some l) :
    ∃ cbi', cs.foldlM (fun cbi c => removeYellowChar cbi k c) cbi = some cbi' ∧
      cbi'.lookup k = some (cs.foldl List.erase l) ∧
      ∀ k' ≠ k, cbi'.lookup k' = cbi.lookup k' := by
  induction cs generalizing cbi l with
  | nil => exact ⟨cbi, rfl, h, fun _ _ => rfl⟩
  | cons c cs ih =>
    have hstep : removeYellowChar cbi k c =
        some (if c ∈ l then dictUpdate cbi k (l.erase c) else cbi) := by
      rw [removeYellowChar, h]
    set cbi₁ := if c ∈ l then dictUpdate cbi k (l.erase c) else cbi with hc₁
    have h₁ : cbi₁.lookup k = some (l.erase c) := by
      rw [hc₁]
      split
      · exact lookup_dictUpdate_self cbi k (l.erase c)
      · rw [h, List.erase_of_not_mem (by assumption)]
    obtain ⟨cbi', hfold, hk, hne⟩ := ih cbi₁ (l.erase c) h₁
    refine ⟨cbi', ?_, by simpa using hk, ?_⟩
    · rw [List.foldlM_cons, hstep]
      exact hfold
    · intro k' hk'
      rw [hne k' hk', hc₁]
      split
      · exact lookup_dictUpdate_ne cbi k k' (l.erase c) hk'
      · rfl

theorem yellowEntryFold_lookup_ne (cs : List Char) (k : String)
    (cbi cbi₁ : List (String × List Char))
    (h : cs.foldlM (fun cbi c => removeYellowChar cbi k c) cbi = some cbi₁)
    (k' : String) (hk' : k' ≠ k) : cbi₁.lookup k' = cbi.lookup k' := by
  induction cs generalizing cbi with
  | nil => cases h; rfl
  | cons c cs ih =>
    rw [List.foldlM_cons] at h
    cases hstep : removeYellowChar cbi k c with
    | none => rw [hstep] at h; cases h
    | some cbi₀ =>
      rw [hstep] at h
      rw [ih cbi₀ h]
      rw [removeYellowChar] at hstep
      cases hl : cbi.lookup k with
      | none => rw [hl] at hstep; cases hstep
      | some l =>
        rw [hl] at hstep
        cases hstep
        split
        · exact lookup_dictUpdate_ne cbi k k' (l.erase c) hk'
        · rfl

theorem yellowEntryFold_lookup_self (cs : List Char) (k : String)
    (cbi cbi₁ : List (String × List Char)) (l : List Char)
    (h : cs.foldlM (fun cbi c => removeYellowChar cbi k c) cbi = some cbi₁)
    (hl : cbi.lookup k = some l) : cbi₁.lookup k = some (cs.foldl List.erase l) := by
  obtain ⟨cbi', hfold, hk, _⟩ := yellowEntryFold_eq cs k cbi l hl
  rw [h] at hfold
  cases hfold
  exact hk

theorem applyYellows_cons (p : String × List Char) (ys : List (String × List Char))
    (cbi : List (String × List Char)) :
    applyYellows (p :: ys) cbi =
      (p.2.foldlM (fun cbi c => removeYellowChar cbi p.1 c) cbi).bind
        (applyYellows ys) := by
  rw [applyYellows, List.foldlM_cons]
  rfl

theorem applyYellows_lookup_of_not_key (ys : List (String × List Char))
    (cbi cbi' : List (String × List Char)) (k : String)
    (h : applyYellows ys cbi = some cbi') (hk : ∀ p ∈ ys, p.1 ≠ k) :
    cbi'.lookup k = cbi.lookup k := by
  induction ys generalizing cbi with
  | nil => cases h; rfl
  | cons p ys ih =>
    rw [applyYellows_cons] at h
    cases hstep : p.2.foldlM (fun cbi c => removeYellowChar cbi p.1 c) cbi with
    | none => rw [hstep] at h; cases h
    | some cbi₁ =>
      rw [hstep] at h
      rw [ih cbi₁ h fun q hq => hk q (List.mem_cons_of_mem p hq)]
      exact yellowEntryFold_lookup_ne p.2 p.1 cbi cbi₁ hstep k
        (Ne.symm (hk p (List.mem_cons_self p ys)))

theorem applyYellows_lookup_key (ys : List (String × List Char))
    (cbi cbi' : List (String × List Char)) (P : String) (cs l : List Char)
    (hnodup : (ys.map Prod.fst).Nodup) (hmem : (P, cs) ∈ ys)
    (hl : cbi.lookup P = some l) (h : applyYellows ys cbi = some cbi') :
    cbi'.lookup P = some (cs.foldl List.erase l) := by
  induction ys generalizing cbi l with
  | nil => cases hmem
  | cons q ys ih =>
    rw [List.map_cons, List.nodup_cons] at hnodup
    rw [applyYellows_cons] at h
    cases hstep : q.2.foldlM (fun cbi c => removeYellowChar cbi q.1 c) cbi with
    | none => rw [hstep] at h; cases h
    | some cbi₁ =>
      rw [hstep] at h
      rcases List.mem_cons.mp hmem with rfl | hmem'
      · rw [applyYellows_lookup_of_not_key ys cbi₁ cbi' P h
          (fun p hp hc =>
            hnodup.1 (hc ▸ (List.mem_map_of_mem Prod.fst hp : p.1 ∈ ys.map Prod.fst)))]
        exact yellowEntryFold_lookup_self cs P cbi cbi₁ l hstep hl
      · have hq : q.1 ≠ P := fun hc =>
          hnodup.1 (hc ▸ (List.mem_map_of_mem Prod.fst hmem' : (P, cs).1 ∈ ys.map Prod.fst))
        have : cbi₁.lookup P = some l :=
          (yellowEntryFold_lookup_ne q.2 q.1 cbi cbi₁ hstep P (Ne.symm hq)).trans hl
        exact ih cbi₁ l hnodup.2 hmem' this h

theorem applyYellows_total (ys : List (String × List Char))
    (cbi : List (String × List Char))
    (h : ∀ p ∈ ys, ∃ l, cbi.lookup p.1 = some l) :
    ∃ cbi', applyYellows ys cbi = some cbi' ∧
      ∀ k l, cbi.lookup k = some l → ∃ l', cbi'.lookup k = some l' := by
  induction ys generalizing cbi with
  | nil => exact ⟨cbi, rfl, fun k l hl => ⟨l, hl⟩⟩
  | cons q ys ih =>
    obtain ⟨l, hl⟩ := h q (List.mem_cons_self q ys)
    obtain ⟨cbi₁, hfold, hk, hne⟩ := yellowEntryFold_eq q.2 q.1 cbi l hl
    have hpres : ∀ k l, cbi.lookup k = some l → ∃ l', cbi₁.lookup k = some l' := by
      intro k l' hl'
      by_cases hkq : k = q.1
      · exact ⟨q.2.foldl List.erase l, hkq ▸ hk⟩
      · exact ⟨l', (hne k hkq).trans hl'⟩
    obtain ⟨cbi', happ, hpres'⟩ := ih cbi₁ (by
      intro p hp
      obtain ⟨l', hl'⟩ := h p (List.mem_cons_of_mem q hp)
      exact hpres p.1 l' hl')
    refine ⟨cbi', ?_, fun k l' hl' => by
      obtain ⟨l'', hl''⟩ := hpres k l' hl'
      exact hpres' k l'' hl''⟩
    rw [applyYellows_cons, hfold]
    exact happ

/-! ### The generation loop -/

theorem lookup_initCbi (avail : List Char) (k : String) (hk : k ∈ positions) :
    (initCbi avail).lookup k = some avail := by
  fin_cases hk <;> rfl

theorem generateWords_eq (gs : List (String × Char)) (ys : List (String × List Char))
    (grays : List Char) (dict : List Word) (ws : List Word)
    (h : generateWords gs ys grays dict = some ws) :
    ∃ cbi l1 l2 l3 l4 l5, charsByIndex gs ys grays = some cbi ∧
      cbi.lookup "1" = some l1 ∧ cbi.lookup "2" = some l2 ∧
      cbi.lookup "3" = some l3 ∧ cbi.lookup "4" = some l4 ∧
      cbi.lookup "5" = some l5 ∧
      ws = (combos l1 l2 l3 l4 l5).foldl (addWord (yellowChars ys) dict) [] := by
  unfold generateWords at h
  split at h
  · cases h
  · rename_i cbi hc
    split at h
    · rename_i l1 l2 l3 l4 l5 h1 h2 h3 h4 h5
      exact ⟨cbi, l1, l2, l3, l4, l5, hc, h1, h2, h3, h4, h5,
        (Option.some_inj.mp h).symm⟩
    · cases h

theorem mem_combos (l1 l2 l3 l4 l5 : List Char) (w : Word) :
    w ∈ combos l1 l2 l3 l4 l5 ↔
      ∃ i ∈ l1, ∃ j ∈ l2, ∃ k ∈ l3, ∃ l ∈ l4, ∃ m ∈ l5, w = [i, j, k, l, m] := by
  simp only [combos, List.mem_flatMap, List.mem_map]
  constructor
  · rintro ⟨i, hi, j, hj, k, hk, l, hl, m, hm, rfl⟩
    exact ⟨i, hi, j, hj, k, hk, l, hl, m, hm, rfl⟩
  · rintro ⟨i, hi, j, hj, k, hk, l, hl, m, hm, rfl⟩
    exact ⟨i, hi, j, hj, k, hk, l, hl, m, hm, rfl⟩

theorem mem_foldl_addWord (ych : List Char) (dict : List Word) (l : List Word)
    (acc : List Word) (w : Word) (h : w ∈ l.foldl (addWord ych dict) acc) :
    w ∈ acc ∨ (w ∈ l ∧ (∀ c ∈ ych, c ∈ w) ∧ w ∈ dict) := by
  induction l generalizing acc with
  | nil => exact Or.inl h
  | cons x l ih =>
    rw [List.foldl_cons] at h
    rcases ih (addWord ych dict acc x) h with hacc | ⟨hl, hy, hd⟩
    · unfold addWord at hacc
      split_ifs at hacc with hA hB hC
      all_goals try exact Or.inl hacc
      rcases List.mem_append.mp hacc with hacc' | hx
      · exact Or.inl hacc'
      · have hwx : w = x := List.mem_singleton.mp hx
        subst hwx
        exact Or.inr ⟨List.mem_cons.mpr (Or.inl rfl), hA, hB⟩
    · exact Or.inr ⟨List.mem_cons_of_mem x hl, hy, hd⟩

/-- Master membership lemma: everything that is true of a word in the
output of `generateWords`. -/
theorem mem_generateWords (gs : List (String × Char)) (ys : List (String × List Char))
    (grays : List Char) (dict : List Word) (ws : List Word) (w : Word)
    (h : generateWords gs ys grays dict = some ws) (hw : w ∈ ws) :
    w ∈ dict ∧ (∀ c ∈ yellowChars ys, c ∈ w) ∧
      ∃ cbi l1 l2 l3 l4 l5, charsByIndex gs ys grays = some cbi ∧
        cbi.lookup "1" = some l1 ∧ cbi.lookup "2" = some l2 ∧
        cbi.lookup "3" = some l3 ∧ cbi.lookup "4" = some l4 ∧
        cbi.lookup "5" = some l5 ∧
        ∃ i ∈ l1, ∃ j ∈ l2, ∃ k ∈ l3, ∃ l ∈ l4, ∃ m ∈ l5, w = [i, j, k, l, m] := by
  obtain ⟨cbi, l1, l2, l3, l4, l5, hc, h1, h2, h3, h4, h5, hws⟩ :=
    generateWords_eq gs ys grays dict ws h
  rw [hws] at hw
  rcases mem_foldl_addWord _ _ _ _ _ hw with hacc | ⟨hcomb, hy, hd⟩
  · cases hacc
  · exact ⟨hd, hy, cbi, l1, l2, l3, l4, l5, hc, h1, h2, h3, h4, h5,
      (mem_combos l1 l2 l3 l4 l5 w).mp hcomb⟩

/-! ### Erase-fold arithmetic -/

theorem foldl_erase_subset (cs l : List Char) : cs.foldl List.erase l ⊆ l := by
  induction cs generalizing l with
  | nil => exact fun _ h => h
  | cons c cs ih =>
    rw [List.foldl_cons]
    exact fun x hx => List.erase_subset c l (ih (l.erase c) hx)

theorem count_foldl_erase (cs l : List Char) (a : Char) :
    (cs.foldl List.erase l).count a = l.count a - cs.count a := by
  induction cs generalizing l with
  | nil => rfl
  | cons c cs ih =>
    rw [List.foldl_cons, ih, List.count_erase, List.count_cons]
    by_cases hca : c = a
    · simp only [hca, beq_self_eq_true, if_true]
      omega
    · simp only [beq_eq_false_iff_ne.mpr hca, if_false]
      omega

/-! ### Case analyses on the per-position table -/

theorem charsByIndex_def (gs : List (String × Char)) (ys : List (String × List Char))
    (grays : List Char) :
    charsByIndex gs ys grays =
      applyYellows ys (applyGreens gs (initCbi (availableChars gs ys grays))) := rfl

theorem lookup_applyGreens_initCbi_cases (gs : List (String × Char)) (avail : List Char)
    (P : String) (hg : (gs.map Prod.fst).Nodup) (hP : P ∈ positions) :
    (∃ c, (P, c) ∈ gs ∧ (applyGreens gs (initCbi avail)).lookup P = some [c]) ∨
      ((∀ p ∈ gs, p.1 ≠ P) ∧ (applyGreens gs (initCbi avail)).lookup P = some avail) := by
  by_cases hex : ∃ c, (P, c) ∈ gs
  · obtain ⟨c, hc⟩ := hex
    exact Or.inl ⟨c, hc, lookup_applyGreens_self gs (initCbi avail) P c hg hc⟩
  · have hnk : ∀ p ∈ gs, p.1 ≠ P := by
      intro p hp hc
      exact hex ⟨p.2, by rw [← hc]; exact hp⟩
    exact Or.inr ⟨hnk, by
      rw [lookup_applyGreens_of_not_key gs _ P hnk]
      exact lookup_initCbi avail P hP⟩

theorem lookup_applyYellows_cases (ys : List (String × List Char))
    (cbi cbi' : List (String × List Char)) (P : String) (l₀ : List Char)
    (hy : (ys.map Prod.fst).Nodup) (h : applyYellows ys cbi = some cbi')
    (hl : cbi.lookup P = some l₀) :
    (∃ cs, (P, cs) ∈ ys ∧ cbi'.lookup P = some (cs.foldl List.erase l₀)) ∨
      cbi'.lookup P = some l₀ := by
  by_cases hex : ∃ cs, (P, cs) ∈ ys
  · obtain ⟨cs, hcs⟩ := hex
    exact Or.inl ⟨cs, hcs, applyYellows_lookup_key ys cbi cbi' P cs l₀ hy hcs hl h⟩
  · refine Or.inr ?_
    rw [applyYellows_lookup_of_not_key ys cbi cbi' P h ?_, hl]
    intro p hp hc
    exact hex ⟨p.2, by rw [← hc]; exact hp⟩

/-- Any per-position candidate list produced by the table construction is a
subset of the available pool. -/
theorem lookup_charsByIndex_subset (gs : List (String × Char))
    (ys : List (String × List Char)) (grays : List Char)
    (cbi : List (String × List Char)) (P : String) (lP : List Char)
    (hg : (gs.map Prod.fst).Nodup) (hy : (ys.map Prod.fst).Nodup)
    (hP : P ∈ positions) (hc : charsByIndex gs ys grays = some cbi)
    (hlP : cbi.lookup P = some lP) : lP ⊆ availableChars gs ys grays := by
  rw [charsByIndex_def] at hc
  rcases lookup_applyGreens_initCbi_cases gs (availableChars gs ys grays) P hg hP with
    ⟨c, hcg, hl₀⟩ | ⟨_, hl₀⟩
  · have hsub : [c] ⊆ availableChars gs ys grays := by
      intro x hx
      rcases List.mem_singleton.mp hx with rfl
      exact List.mem_append.mpr (Or.inl (List.mem_append.mpr (Or.inl
        (List.mem_map_of_mem Prod.snd hcg))))
    rcases lookup_applyYellows_cases ys _ cbi P [c] hy hc hl₀ with ⟨cs, _, hfin⟩ | hfin
    · rw [hfin] at hlP
      cases hlP
      exact fun x hx => hsub (foldl_erase_subset cs [c] hx)
    · rw [hfin] at hlP
      cases hlP
      exact hsub
  · rcases lookup_applyYellows_cases ys _ cbi P _ hy hc hl₀ with ⟨cs, _, hfin⟩ | hfin
    · rw [hfin] at hlP
      cases hlP
      exact foldl_erase_subset cs _
    · rw [hfin] at hlP
      cases hlP
      exact fun x hx => hx

/-- For a word in the output and a position key, the word's letter at that
position lies in the final per-position candidate list. -/
theorem letterAt_mem_of_mem_generateWords (gs : List (String × Char))
    (ys : List (String × List Char)) (grays : List Char) (dict : List Word)
    (ws : List Word) (w : Word) (P : String)
    (h : generateWords gs ys grays dict = some ws) (hw : w ∈ ws)
    (hP : P ∈ positions) :
    ∃ cbi lP c, charsByIndex gs ys grays = some cbi ∧ cbi.lookup P = some lP ∧
      w.get? (posIdx P) = some c ∧ c ∈ lP := by
  obtain ⟨_, _, cbi, l1, l2, l3, l4, l5, hc, h1, h2, h3, h4, h5,
    i, hi, j, hj, k, hk, l, hl, m, hm, rfl⟩ :=
    mem_generateWords gs ys grays dict ws w h hw
  fin_cases hP
  · exact ⟨cbi, l1, i, hc, h1, rfl, hi⟩
  · exact ⟨cbi, l2, j, hc, h2, rfl, hj⟩
  · exact ⟨cbi, l3, k, hc, h3, rfl, hk⟩
  · exact ⟨cbi, l4, l, hc, h4, rfl, hl⟩
  · exact ⟨cbi, l5, m, hc, h5, rfl, hm⟩

theorem generateWords_eq_some (gs : List (String × Char)) (ys : List (String × List Char))
    (grays : List Char) (dict : List Word) (cbi : List (String × List Char))
    (l1 l2 l3 l4 l5 : List Char)
    (hc : charsByIndex gs ys grays = some cbi)
    (h1 : cbi.lookup "1" = some l1) (h2 : cbi.lookup "2" = some l2)
    (h3 : cbi.lookup "3" = some l3) (h4 : cbi.lookup "4" = some l4)
    (h5 : cbi.lookup "5" = some l5) :
    generateWords gs ys grays dict =
      some ((combos l1 l2 l3 l4 l5).foldl (addWord (yellowChars ys) dict) []) := by
  simp only [generateWords, hc, h1, h2, h3, h4, h5]

theorem applyYellows_of_empty_values (ys : List (String × List Char))
    (cbi : List (String × List Char)) (h : ∀ p ∈ ys, p.2 = []) :
    applyYellows ys cbi = some cbi := by
  induction ys with
  | nil => rfl
  | cons q ys ih =>
    rw [applyYellows_cons, h q (List.mem_cons_self q ys)]
    simp only [List.foldlM_nil, Option.bind]
    exact ih fun p hp => h p (List.mem_cons_of_mem q hp)

/-! ## The claims -/

/-- C5: for a green-only constraint set (no yellows, no grays) whose green
mapping covers all five positions, `generate_words` returns at most one
candidate — the concatenation of the green letters — and returns it exactly
when that word is in the dictionary. -/
theorem green_only_full_cover (gs : List (String × Char)) (dict : List Word)
    (g1 g2 g3 g4 g5 : Char) (hg : (gs.map Prod.fst).Nodup)
    (h1 : ("1", g1) ∈ gs) (h2 : ("2", g2) ∈ gs) (h3 : ("3", g3) ∈ gs)
    (h4 : ("4", g4) ∈ gs) (h5 : ("5", g5) ∈ gs) :
    generateWords gs [] [] dict =
      some (if [g1, g2, g3, g4, g5] ∈ dict then [[g1, g2, g3, g4, g5]] else []) := by
  have hchars : charsByIndex gs [] [] =
      some (applyGreens gs (initCbi (availableChars gs [] []))) := rfl
  rw [generateWords_eq_some gs [] [] dict _ [g1] [g2] [g3] [g4] [g5] hchars
    (lookup_applyGreens_self gs _ "1" g1 hg h1)
    (lookup_applyGreens_self gs _ "2" g2 hg h2)
    (lookup_applyGreens_self gs _ "3" g3 hg h3)
    (lookup_applyGreens_self gs _ "4" g4 hg h4)
    (lookup_applyGreens_self gs _ "5" g5 hg h5)]
  rw [show combos [g1] [g2] [g3] [g4] [g5] = [[g1, g2, g3, g4, g5]] from rfl]
  rw [List.foldl_cons, List.foldl_nil, show yellowChars [] = [] from rfl]
  by_cases hd : [g1, g2, g3, g4, g5] ∈ dict
  · simp [addWord, hd]
  · simp [addWord, hd]

theorem green_only_full_cover_wit :
    generateWords [("1", 'c'), ("2", 'r'), ("3", 'a'), ("4", 'n'), ("5", 'e')] [] []
        [['c', 'r', 'a', 'n', 'e'], ['z', 'e', 'b', 'r', 'a']] =
      some (if ['c', 'r', 'a', 'n', 'e'] ∈
          [['c', 'r', 'a', 'n', 'e'], ['z', 'e', 'b', 'r', 'a']] then
          [['c', 'r', 'a', 'n', 'e']] else []) :=
  green_only_full_cover _ _ 'c' 'r' 'a' 'n' 'e' (by decide) (by decide) (by decide)
    (by decide) (by decide) (by decide)

/-- C6: every word in `generate_words`' output contains every
yellow-constrained letter at least once, and is a member of the supplied
dictionary. -/
theorem output_yellow_presence_and_dict (gs : List (String × Char))
    (ys : List (String × List Char)) (grays : List Char) (dict : List Word)
    (ws : List Word) (w : Word)
    (h : generateWords gs ys grays dict = some ws) (hw : w ∈ ws) :
    (∀ c, (∃ p ∈ ys, c ∈ p.2) → c ∈ w) ∧ w ∈ dict := by
  obtain ⟨hd, hy, -⟩ := mem_generateWords gs ys grays dict ws w h hw
  refine ⟨fun c hc => hy c ?_, hd⟩
  obtain ⟨p, hp, hcp⟩ := hc
  exact List.mem_dedup.mpr (List.mem_flatMap.mpr ⟨p, hp, hcp⟩)

theorem output_yellow_presence_and_dict_wit :
    'a' ∈ (['b', 'a', 'a', 'a', 'a'] : Word) :=
  (output_yellow_presence_and_dict [] [("1", ['a'])] ['b']
    [['b', 'a', 'a', 'a', 'a']] [['b', 'a', 'a', 'a', 'a']] ['b', 'a', 'a', 'a', 'a']
    (by decide) (by decide)).1 'a' (by decide)

/-- C7: when the base pool (green ∪ yellow ∪ gray letters) is empty,
`generate_words` returns the empty list, whatever the dictionary is. -/
theorem empty_pool_empty_output (gs : List (String × Char))
    (ys : List (String × List Char)) (grays : List Char) (dict : List Word)
    (h : availableChars gs ys grays = []) :
    generateWords gs ys grays dict = some [] := by
  have h' := h
  rw [availableChars, List.append_eq_nil] at h'
  obtain ⟨hgy, hgray⟩ := h'
  rw [List.append_eq_nil] at hgy
  obtain ⟨hgreen, hyel⟩ := hgy
  have hgs : gs = [] := List.map_eq_nil_iff.mp hgreen
  have hysv : ∀ p ∈ ys, p.2 = [] := by
    intro p hp
    refine List.eq_nil_iff_forall_not_mem.mpr fun c hc => ?_
    have : c ∈ yellowChars ys := List.mem_dedup.mpr (List.mem_flatMap.mpr ⟨p, hp, hc⟩)
    rw [hyel] at this
    cases this
  subst hgs
  have hchars : charsByIndex [] ys grays = some (initCbi []) := by
    rw [charsByIndex_def, h]
    exact applyYellows_of_empty_values ys _ hysv
  rw [generateWords_eq_some [] ys grays dict (initCbi []) [] [] [] [] [] hchars
    rfl rfl rfl rfl rfl]
  rfl

theorem empty_pool_empty_output_wit :
    generateWords [] [("1", [])] [] [['a', 'a', 'a', 'a', 'a']] = some [] :=
  empty_pool_empty_output [] [("1", [])] [] [['a', 'a', 'a', 'a', 'a']] (by decide)

/-- C10: `generate_words` never raises when every green and yellow position
key is one of `"1"` … `"5"`, and there is an input with an out-of-range
yellow key on which it raises a `KeyError` (modelled as `none`): the
position-table lookup is the only partial operation. -/
theorem generate_total_iff_keys :
    (∀ (gs : List (String × Char)) (ys : List (String × List Char))
        (grays : List Char) (dict : List Word),
        (∀ p ∈ gs, p.1 ∈ positions) → (∀ p ∈ ys, p.1 ∈ positions) →
        ∃ ws, generateWords gs ys grays dict = some ws) ∧
      generateWords [] [("7", ['a'])] [] [] = none := by
  constructor
  · intro gs ys grays dict _ hykeys
    have hys : ∀ p ∈ ys,
        ∃ l, (applyGreens gs (initCbi (availableChars gs ys grays))).lookup p.1 = some l := by
      intro p hp
      exact lookup_applyGreens_isSome gs _ p.1 _
        (lookup_initCbi (availableChars gs ys grays) p.1 (hykeys p hp))
    obtain ⟨cbi', happ, hpres⟩ := applyYellows_total ys _ hys
    have hchars : charsByIndex gs ys grays = some cbi' := by
      rw [charsByIndex_def]; exact happ
    have hlook : ∀ k, k ∈ positions → ∃ l, cbi'.lookup k = some l := by
      intro k hk
      obtain ⟨w', hw'⟩ := lookup_applyGreens_isSome gs
        (initCbi (availableChars gs ys grays)) k _
        (lookup_initCbi (availableChars gs ys grays) k hk)
      exact hpres k w' hw'
    obtain ⟨l1, hl1⟩ := hlook "1" (by decide)
    obtain ⟨l2, hl2⟩ := hlook "2" (by decide)
    obtain ⟨l3, hl3⟩ := hlook "3" (by decide)
    obtain ⟨l4, hl4⟩ := hlook "4" (by decide)
    obtain ⟨l5, hl5⟩ := hlook "5" (by decide)
    exact ⟨_, generateWords_eq_some gs ys grays dict cbi' l1 l2 l3 l4 l5 hchars
      hl1 hl2 hl3 hl4 hl5⟩
  · rfl

theorem generate_total_iff_keys_wit :
    ∃ ws, generateWords [("1", 'a')] [("2", ['b'])] ['b'] [] = some ws :=
  generate_total_iff_keys.1 [("1", 'a')] [("2", ['b'])] ['b'] [] (by decide) (by decide)

/-- C1 counterexample: with no greens and no yellows and gray set `{'a'}`,
`generate_words` outputs `"aaaaa"` — every one of its letters is the gray
letter `'a'`, which is neither pinned green nor required yellow, so gray
letters are not globally disallowed. -/
theorem grays_not_excluded_cex :
    generateWords [] [] ['a'] [['a', 'a', 'a', 'a', 'a']] =
        some [['a', 'a', 'a', 'a', 'a']] ∧
      'a' ∈ (['a'] : List Char) ∧ greenChars [] = [] ∧ yellowChars [] = [] ∧
      'a' ∈ (['a', 'a', 'a', 'a', 'a'] : Word) :=
  ⟨rfl, by decide, rfl, rfl, by decide⟩

/-- C1 (amended): gray letters are additional candidates, not exclusions —
every letter of every output word is drawn from the base pool of green,
yellow and gray letters. -/
theorem output_letters_mem_pool (gs : List (String × Char))
    (ys : List (String × List Char)) (grays : List Char) (dict : List Word)
    (ws : List Word) (w : Word)
    (hg : (gs.map Prod.fst).Nodup) (hy : (ys.map Prod.fst).Nodup)
    (h : generateWords gs ys grays dict = some ws) (hw : w ∈ ws) :
    ∀ c ∈ w, c ∈ availableChars gs ys grays := by
  obtain ⟨-, -, cbi, l1, l2, l3, l4, l5, hc, h1, h2, h3, h4, h5,
    i, hi, j, hj, k, hk, l, hl, m, hm, rfl⟩ :=
    mem_generateWords gs ys grays dict ws w h hw
  intro c hcw
  simp only [List.mem_cons, List.not_mem_nil, or_false] at hcw
  rcases hcw with rfl | rfl | rfl | rfl | rfl
  · exact lookup_charsByIndex_subset gs ys grays cbi "1" l1 hg hy (by decide) hc h1 hi
  · exact lookup_charsByIndex_subset gs ys grays cbi "2" l2 hg hy (by decide) hc h2 hj
  · exact lookup_charsByIndex_subset gs ys grays cbi "3" l3 hg hy (by decide) hc h3 hk
  · exact lookup_charsByIndex_subset gs ys grays cbi "4" l4 hg hy (by decide) hc h4 hl
  · exact lookup_charsByIndex_subset gs ys grays cbi "5" l5 hg hy (by decide) hc h5 hm

theorem output_letters_mem_pool_wit : 'a' ∈ availableChars [] [] ['a'] :=
  output_letters_mem_pool [] [] ['a'] [['a', 'a', 'a', 'a', 'a']]
    [['a', 'a', 'a', 'a', 'a']] ['a', 'a', 'a', 'a', 'a']
    (by decide) (by decide) rfl (by decide) 'a' (by decide)

/-- C2 counterexample: yellow constraint `{"1": ['a']}` with `'a'` also green
at position 2 and gray: the pool holds `'a'` three times, `remove` deletes
only one copy, and the output word `"aaaaa"` carries `'a'` at position 1. -/
theorem yellow_position_exclusion_cex :
    generateWords [("2", 'a')] [("1", ['a'])] ['a'] [['a', 'a', 'a', 'a', 'a']] =
        some [['a', 'a', 'a', 'a', 'a']] ∧
      (("1", ['a']) ∈ [("1", ['a'])]) ∧
      (['a', 'a', 'a', 'a', 'a'] : Word).get? (posIdx "1") = some 'a' :=
  ⟨rfl, by decide, rfl⟩

/-- C2 (amended): a word in the output never carries a yellow-excluded
letter `L` at its excluded position `P`, provided `L` occurs in the combined
pool list no more often than in the yellow list for `P` (`remove` deletes
one occurrence per yellow entry, so surplus pool copies survive). -/
theorem yellow_position_exclusion_amended (gs : List (String × Char))
    (ys : List (String × List Char)) (grays : List Char) (dict : List Word)
    (ws : List Word) (w : Word) (P : String) (cs : List Char) (L : Char)
    (hg : (gs.map Prod.fst).Nodup) (hy : (ys.map Prod.fst).Nodup)
    (hP : P ∈ positions) (hmem : (P, cs) ∈ ys) (hL : L ∈ cs)
    (hcount : (availableChars gs ys grays).count L ≤ cs.count L)
    (h : generateWords gs ys grays dict = some ws) (hw : w ∈ ws) :
    w.get? (posIdx P) ≠ some L := by
  obtain ⟨cbi, lP, c, hc, hlP, hgetc, hclP⟩ :=
    letterAt_mem_of_mem_generateWords gs ys grays dict ws w P h hw hP
  rw [charsByIndex_def] at hc
  have hLnot : L ∉ lP := by
    rcases lookup_applyGreens_initCbi_cases gs (availableChars gs ys grays) P hg hP with
      ⟨g, hgmem, hl₀⟩ | ⟨-, hl₀⟩
    · have hfin := applyYellows_lookup_key ys _ cbi P cs [g] hy hmem hl₀ hc
      rw [hfin] at hlP
      cases hlP
      rw [← List.count_eq_zero, count_foldl_erase]
      have hcg : List.count L [g] ≤ cs.count L := by
        by_cases hgL : g = L
        · subst hgL
          have hmemavail : g ∈ availableChars gs ys grays :=
            List.mem_append.mpr (Or.inl (List.mem_append.mpr (Or.inl
              (List.mem_map_of_mem Prod.snd hgmem))))
          have h1 : 0 < (availableChars gs ys grays).count g :=
            List.count_pos_iff.mpr hmemavail
          have h2 : List.count g [g] = 1 := by simp
          omega
        · have : List.count L [g] = 0 := by
            rw [List.count_singleton, if_neg (by simpa using hgL)]
          omega
      omega
    · have hfin := applyYellows_lookup_key ys _ cbi P cs _ hy hmem hl₀ hc
      rw [hfin] at hlP
      cases hlP
      rw [← List.count_eq_zero, count_foldl_erase]
      omega
  intro hcontra
  rw [hgetc] at hcontra
  exact hLnot ((Option.some_inj.mp hcontra) ▸ hclP)

theorem yellow_position_exclusion_amended_wit :
    (['b', 'a', 'a', 'a', 'a'] : Word).get? (posIdx "1") ≠ some 'a' :=
  yellow_position_exclusion_amended [] [("1", ['a'])] ['b']
    [['b', 'a', 'a', 'a', 'a']] [['b', 'a', 'a', 'a', 'a']]
    ['b', 'a', 'a', 'a', 'a'] "1" ['a'] 'a'
    (by decide) (by decide) (by decide) (by decide) (by decide) (by decide)
    rfl (by decide)

theorem foldl_erase_singleton_of_not_mem (g : Char) (cs : List Char)
    (h : g ∉ cs) : cs.foldl List.erase [g] = [g] := by
  induction cs with
  | nil => rfl
  | cons c cs ih =>
    have hcg : c ∉ [g] := by
      intro hc
      rw [List.mem_singleton] at hc
      exact h (hc ▸ List.mem_cons_self c cs)
    rw [List.foldl_cons, List.erase_of_not_mem hcg]
    exact ih fun hc => h (List.mem_cons_of_mem c hc)

/-- C3 counterexample: greens `{"1": 'a'}` with yellows `{"1": ['a']}` —
the removal loop runs after the green assignment, so the per-position set
for the green position 1 is empty, not `['a']`. -/
theorem green_position_set_cex :
    (("1", 'a') ∈ [("1", 'a')]) ∧
      (charsByIndex [("1", 'a')] [("1", ['a'])] []).bind
          (fun cbi => cbi.lookup "1") = some [] ∧
      (charsByIndex [("1", 'a')] [("1", ['a'])] []).bind
          (fun cbi => cbi.lookup "1") ≠ some ['a'] :=
  ⟨by decide, rfl, by decide⟩

/-- C3 (amended): for a green position P with letter G, the per-position
candidate set is contained in `[G]`, and equals `[G]` whenever G is not
yellow-excluded at P (it is emptied when it is); consequently every output
word carries G at position P. -/
theorem green_position_amended (gs : List (String × Char))
    (ys : List (String × List Char)) (grays : List Char) (P : String) (g : Char)
    (cbi : List (String × List Char)) (lP : List Char)
    (hg : (gs.map Prod.fst).Nodup) (hy : (ys.map Prod.fst).Nodup)
    (hP : P ∈ positions) (hmem : (P, g) ∈ gs)
    (hc : charsByIndex gs ys grays = some cbi) (hlP : cbi.lookup P = some lP) :
    lP ⊆ [g] ∧
      ((∀ cs, (P, cs) ∈ ys → g ∉ cs) → lP = [g]) ∧
      ∀ dict ws w, generateWords gs ys grays dict = some ws → w ∈ ws →
        w.get? (posIdx P) = some g := by
  have hl₀ : (applyGreens gs (initCbi (availableChars gs ys grays))).lookup P =
      some [g] := lookup_applyGreens_self gs _ P g hg hmem
  have hc' := hc
  rw [charsByIndex_def] at hc'
  have hsub : lP ⊆ [g] ∧ ((∀ cs, (P, cs) ∈ ys → g ∉ cs) → lP = [g]) := by
    rcases lookup_applyYellows_cases ys _ cbi P [g] hy hc' hl₀ with
      ⟨cs, hcs, hfin⟩ | hfin
    · rw [hfin] at hlP
      cases hlP
      exact ⟨foldl_erase_subset cs [g],
        fun hno => foldl_erase_singleton_of_not_mem g cs (hno cs hcs)⟩
    · rw [hfin] at hlP
      cases hlP
      exact ⟨fun x hx => hx, fun _ => rfl⟩
  refine ⟨hsub.1, hsub.2, ?_⟩
  intro dict ws w hgen hw
  obtain ⟨cbi', lP', c, hcb, hlP', hget, hcl⟩ :=
    letterAt_mem_of_mem_generateWords gs ys grays dict ws w P hgen hw hP
  rw [hc] at hcb
  cases Option.some_inj.mp hcb
  rw [hlP] at hlP'
  cases Option.some_inj.mp hlP'
  rw [hget]
  exact congrArg some (List.mem_singleton.mp (hsub.1 hcl))

theorem green_position_amended_wit :
    (['a', 'b', 'b', 'b', 'b'] : Word).get? (posIdx "2") = some 'b' :=
  (green_position_amended [("2", 'b')] [] ['a'] "2" 'b'
      [("1", ['b', 'a']), ("2", ['b']), ("3", ['b', 'a']), ("4", ['b', 'a']),
        ("5", ['b', 'a'])] ['b']
      (by decide) (by decide) (by decide) (by decide) rfl rfl).2.2
    [['a', 'b', 'b', 'b', 'b']] [['a', 'b', 'b', 'b', 'b']]
    ['a', 'b', 'b', 'b', 'b'] rfl (by decide)

/-- C4 counterexample: parsing the malformed yellow text `"a1 b"` does not
raise any error — the loop in `main` completes and returns a yellows dict
that includes the malformed token under the empty position key. -/
theorem malformed_yellow_token_cex :
    parseYellows "a1 b" = [("1", ['a']), ("", ['b'])] := rfl

/-- C4 (amended): parsing `"a1 b"` succeeds, mapping the letter `'b'` to the
empty position key `""`; the malformed token only fails later, when
`generate_words` looks that key up in the per-position table and raises a
`KeyError` (modelled as `none`) — not a parse-time `ParseError`. -/
theorem malformed_yellow_token_amended :
    (("", ['b']) ∈ parseYellows "a1 b") ∧
      generateWords [] (parseYellows "a1 b") [] [] = none :=
  ⟨by decide, rfl⟩

theorem isLower_toLower_of_isAlpha (c : Char) (h : (Char.toLower c).isAlpha = true) :
    (Char.toLower c).isLower = true := by
  unfold Char.toLower at h ⊢
  by_cases hc : c.toNat ≥ 65 ∧ c.toNat ≤ 90
  · rw [if_pos hc] at h ⊢
    have hv : Nat.isValidChar (c.toNat + 32) := Or.inl (by omega)
    have ht : (Char.ofNat (c.toNat + 32)).toNat = c.toNat + 32 := by
      rw [Char.ofNat, dif_pos hv]
      rfl
    rw [Char.isLower, Bool.and_eq_true]
    constructor
    · exact decide_eq_true (show (97 : Nat) ≤ (Char.ofNat (c.toNat + 32)).val.toNat by
        rw [show (Char.ofNat (c.toNat + 32)).val.toNat =
          (Char.ofNat (c.toNat + 32)).toNat from rfl, ht]
        omega)
    · exact decide_eq_true (show (Char.ofNat (c.toNat + 32)).val.toNat ≤ (122 : Nat) by
        rw [show (Char.ofNat (c.toNat + 32)).val.toNat =
          (Char.ofNat (c.toNat + 32)).toNat from rfl, ht]
        omega)
  · rw [if_neg hc] at h ⊢
    rw [Char.isAlpha, Bool.or_eq_true] at h
    rcases h with hu | hl
    · exfalso
      rw [Char.isUpper, Bool.and_eq_true] at hu
      obtain ⟨h1, h2⟩ := hu
      have h1' : (65 : Nat) ≤ c.val.toNat := of_decide_eq_true h1
      have h2' : c.val.toNat ≤ (90 : Nat) := of_decide_eq_true h2
      exact hc ⟨h1', h2'⟩
    · exact hl

theorem mem_loadWords_foldl (lines : List (List Char)) (acc : List (List Char))
    (w : List Char)
    (h : w ∈ lines.foldl
      (fun ws line =>
        let w := (pyStrip line).map Char.toLower
        if w.length = 5 ∧ w.all Char.isAlpha then ws ++ [w] else ws) acc) :
    w ∈ acc ∨ (∃ line, w = (pyStrip line).map Char.toLower ∧ w.length = 5 ∧
      w.all Char.isAlpha = true) := by
  induction lines generalizing acc with
  | nil => exact Or.inl h
  | cons line lines ih =>
    rw [List.foldl_cons] at h
    rcases ih _ h with hacc | hrest
    · simp only at hacc
      split_ifs at hacc with hcond
      · rcases List.mem_append.mp hacc with hacc' | hw
        · exact Or.inl hacc'
        · have hwx := List.mem_singleton.mp hw
          subst hwx
          exact Or.inr ⟨line, rfl, hcond.1, hcond.2⟩
      · exact Or.inl hacc
    · exact Or.inr hrest

/-- C9 counterexample: a file with the same valid line twice loads that
word twice — `load_words` does not deduplicate. -/
theorem load_words_dedup_cex :
    loadWords [['a', 'p', 'p', 'l', 'e'], ['a', 'p', 'p', 'l', 'e']] =
        [['a', 'p', 'p', 'l', 'e'], ['a', 'p', 'p', 'l', 'e']] ∧
      ¬ (loadWords [['a', 'p', 'p', 'l', 'e'], ['a', 'p', 'p', 'l', 'e']]).Nodup :=
  ⟨rfl, by decide⟩

/-- C9 (amended): every element of the list returned by `load_words` is an
exactly-5-letter, purely alphabetic, lowercase word, but the list is not
deduplicated — duplicate lines in the file yield duplicate entries. -/
theorem load_words_amended (lines : List (List Char)) (w : List Char)
    (h : w ∈ loadWords lines) :
    w.length = 5 ∧ w.all Char.isAlpha = true ∧ w.all Char.isLower = true := by
  rcases mem_loadWords_foldl lines [] w h with hacc | ⟨line, hweq, hlen, halpha⟩
  · cases hacc
  · refine ⟨hlen, halpha, ?_⟩
    rw [List.all_eq_true] at halpha ⊢
    intro c hc
    have hc' := hc
    rw [hweq] at hc'
    obtain ⟨c', _, rfl⟩ := List.mem_map.mp hc'
    exact isLower_toLower_of_isAlpha c' (halpha _ hc)

theorem load_words_amended_wit :
    (['a', 'p', 'p', 'l', 'e'] : List Char).length = 5 ∧
      (['a', 'p', 'p', 'l', 'e'] : List Char).all Char.isAlpha = true ∧
      (['a', 'p', 'p', 'l', 'e'] : List Char).all Char.isLower = true :=
  load_words_amended [['A', 'p', 'p', 'l', 'E', ' ']] ['a', 'p', 'p', 'l', 'e']
    (by decide)

/-! ### Frame lemmas for the heap model -/

theorem mem_dictUpdate {α : Type} (d : List (String × α)) (k : String) (v : α)
    (q : String × α) (h : q ∈ dictUpdate d k v) : q ∈ d ∨ q = (k, v) := by
  unfold dictUpdate at h
  split at h
  · obtain ⟨p, hp, hq⟩ := List.mem_map.mp h
    split at hq
    · exact Or.inr hq.symm
    · exact Or.inl (hq ▸ hp)
  · rcases List.mem_append.mp h with hd | hs
    · exact Or.inl hd
    · exact Or.inr (List.mem_singleton.mp hs)

theorem lookup_some_mem {α : Type} (d : List (String × α)) (k : String) (v : α)
    (h : d.lookup k = some v) : (k, v) ∈ d := by
  induction d with
  | nil => cases h
  | cons p d ih =>
    rw [show p = (p.1, p.2) from rfl, lookup_cons_eq_if] at h
    split at h
    · cases h
      rename_i hk
      rw [← hk]
      exact List.mem_cons_self _ _
    · exact List.mem_cons_of_mem _ (ih h)

theorem hread_append_left (h : Heap) (l : Heap) (r : Nat) (hr : r < h.length) :
    hread (h ++ l) r = hread h r := by
  unfold hread
  exact List.getElem?_append_left hr

theorem hread_hwrite_ne (h : Heap) (rw r : Nat) (o : PyObj) (hne : rw ≠ r) :
    hread (hwrite h rw o) r = hread h r := by
  unfold hread hwrite
  exact List.getElem?_set_ne hne

theorem initCbiH_eq (h : Heap) (avail : List Char) :
    initCbiH h avail =
      (h ++ [PyObj.chars avail, PyObj.chars avail, PyObj.chars avail,
        PyObj.chars avail, PyObj.chars avail],
       [("1", h.length), ("2", h.length + 1), ("3", h.length + 2),
        ("4", h.length + 3), ("5", h.length + 4)]) := by
  simp [initCbiH, halloc]

theorem applyGreensH_cons (p : String × Char) (gs : List (String × Char))
    (h : Heap) (cbi : List (String × Nat)) :
    applyGreensH (p :: gs) h cbi =
      applyGreensH gs (h ++ [PyObj.chars [p.2]]) (dictUpdate cbi p.1 h.length) := rfl

theorem applyGreensH_frame (gs : List (String × Char)) (N : Nat) :
    ∀ (h : Heap) (cbi : List (String × Nat)), N ≤ h.length →
      (∀ p ∈ cbi, N ≤ p.2) →
      (∀ r, r < N → hread (applyGreensH gs h cbi).1 r = hread h r) ∧
        N ≤ (applyGreensH gs h cbi).1.length ∧
        ∀ p ∈ (applyGreensH gs h cbi).2, N ≤ p.2 := by
  induction gs with
  | nil => exact fun h cbi hN hrefs => ⟨fun r _ => rfl, hN, hrefs⟩
  | cons p gs ih =>
    intro h cbi hN hrefs
    rw [applyGreensH_cons]
    have hrefs' : ∀ q ∈ dictUpdate cbi p.1 h.length, N ≤ q.2 := by
      intro q hq
      rcases mem_dictUpdate cbi p.1 h.length q hq with hq' | rfl
      · exact hrefs q hq'
      · exact hN
    obtain ⟨hf, hl, hm⟩ := ih (h ++ [PyObj.chars [p.2]]) (dictUpdate cbi p.1 h.length)
      (by rw [List.length_append]; omega) hrefs'
    refine ⟨fun r hr => ?_, hl, hm⟩
    rw [hf r hr, hread_append_left h _ r (lt_of_lt_of_le hr hN)]

theorem removeFoldH_frame (cs : List Char) (k : String) (cbi : List (String × Nat))
    (N : Nat) (hrefs : ∀ p ∈ cbi, N ≤ p.2) :
    ∀ h h₁, cs.foldlM (fun h c => removeYellowCharH h cbi k c) h = some h₁ →
      ∀ r, r < N → hread h₁ r = hread h r := by
  induction cs with
  | nil =>
    intro h h₁ hf r _
    cases hf
    rfl
  | cons c cs ih =>
    intro h h₁ hf r hr
    rw [List.foldlM_cons] at hf
    cases hstep : removeYellowCharH h cbi k c with
    | none => rw [hstep] at hf; cases hf
    | some h₀ =>
      rw [hstep] at hf
      rw [ih h₀ h₁ hf r hr]
      unfold removeYellowCharH at hstep
      cases hlk : cbi.lookup k with
      | none => rw [hlk] at hstep; cases hstep
      | some rr =>
        simp only [hlk] at hstep
        cases hrc : readChars h rr with
        | none =>
          simp only [hrc] at hstep
          cases hstep
        | some l =>
          simp only [hrc] at hstep
          cases hstep
          split
          · have hrrN : N ≤ rr := hrefs (k, rr) (lookup_some_mem cbi k rr hlk)
            exact hread_hwrite_ne h rr r _ (by omega)
          · rfl

theorem applyYellowsH_cons (p : String × Nat) (ys : List (String × Nat))
    (h : Heap) (cbi : List (String × Nat)) :
    applyYellowsH (p :: ys) h cbi =
      (match readChars h p.2 with
        | none => none
        | some cs => cs.foldlM (fun h c => removeYellowCharH h cbi p.1 c) h).bind
        (fun h₀ => applyYellowsH ys h₀ cbi) := by
  rw [applyYellowsH, List.foldlM_cons]
  rfl

theorem applyYellowsH_frame (ys : List (String × Nat)) (cbi : List (String × Nat))
    (N : Nat) (hrefs : ∀ p ∈ cbi, N ≤ p.2) :
    ∀ h h₃, applyYellowsH ys h cbi = some h₃ →
      ∀ r, r < N → hread h₃ r = hread h r := by
  induction ys with
  | nil =>
    intro h h₃ hf r _
    cases hf
    rfl
  | cons p ys ih =>
    intro h h₃ hf r hr
    rw [applyYellowsH_cons] at hf
    cases hrc : readChars h p.2 with
    | none => rw [hrc] at hf; cases hf
    | some cs =>
      simp only [hrc] at hf
      cases hfold : cs.foldlM (fun h c => removeYellowCharH h cbi p.1 c) h with
      | none =>
        simp only [hfold] at hf
        cases hf
      | some h₀ =>
        simp only [hfold, Option.some_bind] at hf
        rw [ih h₀ h₃ hf r hr]
        exact removeFoldH_frame cs p.1 cbi N hrefs h h₀ hfold r hr

theorem initCbiH_frame (h : Heap) (avail : List Char) :
    (∀ r, r < h.length → hread (initCbiH h avail).1 r = hread h r) ∧
      h.length ≤ (initCbiH h avail).1.length ∧
      ∀ p ∈ (initCbiH h avail).2, h.length ≤ p.2 := by
  rw [initCbiH_eq]
  refine ⟨fun r hr => hread_append_left h _ r hr, by simp, ?_⟩
  intro p hp
  fin_cases hp <;> omega

theorem hread_lt_length (h : Heap) (r : Nat) (o : PyObj) (hr : hread h r = some o) :
    r < h.length := by
  by_contra hc
  rw [hread, List.getElem?_eq_none (by omega)] at hr
  cases hr

/-- C8: `generate_words` mutates only locally created copies — the run
changes no object of the caller's heap, so all four inputs (greens dict,
yellows dict with its inner lists, grays list, dictionary) are unchanged. -/
theorem generate_preserves_inputs (h : Heap) (gRef yRef grayRef dictRef : Nat)
    (h' : Heap) (ws : List Word)
    (hrun : generateWordsH h gRef yRef grayRef dictRef = some (h', ws)) :
    (∀ r, r < h.length → hread h' r = hread h r) ∧
      hread h' gRef = hread h gRef ∧ hread h' yRef = hread h yRef ∧
      hread h' grayRef = hread h grayRef ∧ hread h' dictRef = hread h dictRef := by
  simp only [generateWordsH] at hrun
  split at hrun <;> try cases hrun
  rename_i gs ys grays dict hg hy hgr hd
  split at hrun <;> try cases hrun
  rename_i ysv hmapM
  split at hrun <;> try cases hrun
  rename_i h3 happ
  split at hrun <;> try cases hrun
  rename_i r1 r2 r3 r4 r5 hr1 hr2 hr3 hr4 hr5
  split at hrun <;> try cases hrun
  rename_i l1 l2 l3 l4 l5 hl1 hl2 hl3 hl4 hl5
  have main : ∀ r, r < h.length → hread h' r = hread h r := by
    obtain ⟨i_f, i_l, i_refs⟩ := initCbiH_frame h (availableChars gs ysv grays)
    obtain ⟨g_f, g_l, g_refs⟩ :=
      applyGreensH_frame gs h.length (initCbiH h (availableChars gs ysv grays)).1
        (initCbiH h (availableChars gs ysv grays)).2 i_l i_refs
    intro r hr
    rw [applyYellowsH_frame ys _ h.length g_refs _ h' happ r hr, g_f r hr, i_f r hr]
  exact ⟨main, main gRef (hread_lt_length h gRef _ hg),
    main yRef (hread_lt_length h yRef _ hy),
    main grayRef (hread_lt_length h grayRef _ hgr),
    main dictRef (hread_lt_length h dictRef _ hd)⟩

theorem generate_preserves_inputs_wit :
    hread
      [PyObj.gdict [("1", 'a')], PyObj.ydict [("2", 4)], PyObj.chars ['b'],
        PyObj.words [['a', 'b', 'a', 'b', 'a']], PyObj.chars ['a'],
        PyObj.chars ['a', 'a', 'b'], PyObj.chars ['a', 'b'],
        PyObj.chars ['a', 'a', 'b'], PyObj.chars ['a', 'a', 'b'],
        PyObj.chars ['a', 'a', 'b'], PyObj.chars ['a']] 0 =
    hread
      [PyObj.gdict [("1", 'a')], PyObj.ydict [("2", 4)], PyObj.chars ['b'],
        PyObj.words [['a', 'b', 'a', 'b', 'a']], PyObj.chars ['a']] 0 :=
  (generate_preserves_inputs
    [PyObj.gdict [("1", 'a')], PyObj.ydict [("2", 4)], PyObj.chars ['b'],
      PyObj.words [['a', 'b', 'a', 'b', 'a']], PyObj.chars ['a']] 0 1 2 3
    [PyObj.gdict [("1", 'a')], PyObj.ydict [("2", 4)], PyObj.chars ['b'],
      PyObj.words [['a', 'b', 'a', 'b', 'a']], PyObj.chars ['a'],
      PyObj.chars ['a', 'a', 'b'], PyObj.chars ['a', 'b'],
      PyObj.chars ['a', 'a', 'b'], PyObj.chars ['a', 'a', 'b'],
      PyObj.chars ['a', 'a', 'b'], PyObj.chars ['a']]
    [['a', 'b', 'a', 'b', 'a']] rfl).2.1

end Wordle
